import Mathlib

/-!
Shallow embedding of the core session logic of `src/app.py`
(stockpricepredictions-api): venue resolution (`_venue_info` over the
`EXCHANGES` suffix table), session selection
(`_previous_completed_daily_row`), calendar advancement
(`_next_trading_date`) and the row cleaning done by `_fetch_recent_daily`.

Modelling conventions:
* Instants are counted in whole minutes (an `ℤ`); a calendar date is the
  floor-division of a wall-clock minute count by 1440, and a weekday uses
  Python's numbering (Monday = 0; 1970-01-01 was a Thursday, weekday 3).
* A pandas timestamp is modelled by `DailyBar.wall` (its wall-clock minute
  count in the frame it carries) together with `DailyBar.tzOff`
  (`some o` when the timestamp is timezone-aware with UTC offset `o`
  minutes, `none` when it is timezone-naive).  `pandas.Timestamp.date()`
  returns the wall-clock date in the carried frame, which is
  `codeDate` below.
* OHLCV cells are `Option ℚ`: `none` models a missing value (NaN).
* Timezones in the `EXCHANGES` table are kept as their IANA identifier
  strings; the session selector, which only needs the venue's current
  UTC offset, is parametrised by that offset in minutes.
-/

namespace StockApp

/-- One row of the daily OHLCV frame, together with its index timestamp:
`wall` is the timestamp's wall-clock minute count in its carried frame and
`tzOff` its carried UTC offset (`none` for a timezone-naive timestamp). -/
structure DailyBar where
  wall : ℤ
  tzOff : Option ℤ
  open_ : Option ℚ
  high : Option ℚ
  low : Option ℚ
  close : Option ℚ
  volume : Option ℚ
deriving DecidableEq

/-- `MON_FRI = {0,1,2,3,4}` from `app.py` (Python weekday numbering). -/
def MON_FRI : List (Fin 7) := [0, 1, 2, 3, 4]

/-- `SUN_THU = {6,0,1,2,3}` from `app.py` (Saudi, Sun-Thu open). -/
def SUN_THU : List (Fin 7) := [6, 0, 1, 2, 3]

/-- One value of the `EXCHANGES` table: venue name, IANA timezone
identifier, session start and end (hour, minute) and weekly open days. -/
structure ExchangeInfo where
  venue : String
  tz : String
  startH : ℕ
  startM : ℕ
  endH : ℕ
  endM : ℕ
  openDays : List (Fin 7)
deriving DecidableEq

/-- The `EXCHANGES` dict of `app.py` as an ordered association list
(Python dicts preserve insertion order, and `_venue_info` iterates the
dict in that order).  Suffix keys are kept as character lists. -/
def EXCHANGES : List (List Char × ExchangeInfo) :=
  [ (".NS".toList, ⟨"NSE", "Asia/Kolkata", 9, 15, 15, 30, MON_FRI⟩),
    (".BO".toList, ⟨"BSE", "Asia/Kolkata", 9, 15, 15, 30, MON_FRI⟩),
    (".NY".toList, ⟨"NYSE", "US/Eastern", 9, 30, 16, 0, MON_FRI⟩),
    (".O".toList, ⟨"NASDAQ", "US/Eastern", 9, 30, 16, 0, MON_FRI⟩),
    (".L".toList, ⟨"LSE", "Europe/London", 8, 0, 16, 30, MON_FRI⟩),
    (".HK".toList, ⟨"HKEX", "Asia/Hong_Kong", 9, 30, 16, 0, MON_FRI⟩),
    (".T".toList, ⟨"TSE", "Asia/Tokyo", 9, 0, 15, 0, MON_FRI⟩),
    (".SS".toList, ⟨"SSE", "Asia/Shanghai", 9, 30, 15, 0, MON_FRI⟩),
    (".SZ".toList, ⟨"SZSE", "Asia/Shanghai", 9, 30, 15, 0, MON_FRI⟩),
    (".TO".toList, ⟨"TSX", "America/Toronto", 9, 30, 16, 0, MON_FRI⟩),
    (".AX".toList, ⟨"ASX", "Australia/Sydney", 10, 0, 16, 0, MON_FRI⟩),
    (".NZ".toList, ⟨"NZX", "Pacific/Auckland", 10, 0, 16, 45, MON_FRI⟩),
    (".SA".toList, ⟨"B3", "America/Sao_Paulo", 10, 0, 17, 30, MON_FRI⟩),
    (".F".toList, ⟨"Xetra", "Europe/Berlin", 8, 0, 20, 0, MON_FRI⟩),
    (".PA".toList, ⟨"Euronext Paris", "Europe/Paris", 9, 0, 17, 30, MON_FRI⟩),
    (".MI".toList, ⟨"Borsa Italiana", "Europe/Rome", 9, 0, 17, 30, MON_FRI⟩),
    (".SW".toList, ⟨"SIX", "Europe/Zurich", 9, 0, 17, 30, MON_FRI⟩),
    (".VX".toList, ⟨"SIX", "Europe/Zurich", 9, 0, 17, 30, MON_FRI⟩),
    (".KS".toList, ⟨"KRX", "Asia/Seoul", 9, 0, 15, 30, MON_FRI⟩),
    (".KQ".toList, ⟨"KOSDAQ", "Asia/Seoul", 9, 0, 15, 30, MON_FRI⟩),
    (".TW".toList, ⟨"TWSE", "Asia/Taipei", 9, 0, 13, 30, MON_FRI⟩),
    (".SI".toList, ⟨"SGX", "Asia/Singapore", 9, 0, 17, 0, MON_FRI⟩),
    (".BK".toList, ⟨"SET", "Asia/Bangkok", 10, 0, 16, 30, MON_FRI⟩),
    (".SR".toList, ⟨"Tadawul", "Asia/Riyadh", 10, 0, 15, 0, SUN_THU⟩) ]

/-- `symbol.upper()` on the character-list model of a ticker string. -/
def upper (s : List Char) : List Char := s.map Char.toUpper

/-- The default venue descriptor returned by `_venue_info` when no suffix
matches: `("US", US/Eastern, time(9,30), time(16,0), MON_FRI)`. -/
def defaultExchange : ExchangeInfo :=
  ⟨"US", "US/Eastern", 9, 30, 16, 0, MON_FRI⟩

/-- The suffix scan inside `_venue_info`: first table entry whose suffix
matches the (already upper-cased) symbol wins; otherwise the default. -/
def venueInfoLookup : List (List Char × ExchangeInfo) → List Char → ExchangeInfo
  | [], _ => defaultExchange
  | (suf, info) :: rest, s =>
      if suf.isSuffixOf s then info else venueInfoLookup rest s

/-- `_venue_info(symbol)`: upper-case the symbol, scan the table in
declaration order, fall back to the default venue. -/
def venueInfo (symbol : List Char) : ExchangeInfo :=
  venueInfoLookup EXCHANGES (upper symbol)

/-- The venue's session-end time of day in minutes. -/
def endMinutes (e : ExchangeInfo) : ℤ := e.endH * 60 + e.endM

/-- `datetime.now(tz).date()`: venue-local calendar date of the instant
`nowUtc` (UTC minutes) at a venue whose current UTC offset is `off`. -/
def localToday (off nowUtc : ℤ) : ℤ := (nowUtc + off).fdiv 1440

/-- `datetime.now(tz).time()` at minute granularity: venue-local
minute-of-day of the instant `nowUtc`. -/
def localTimeOfDay (off nowUtc : ℤ) : ℤ := (nowUtc + off) % 1440

/-- `df.index[i].date()`: the calendar date of a bar's timestamp taken in
the frame the timestamp carries (no timezone conversion happens here,
matching `pandas.Timestamp.date()`). -/
def codeDate (b : DailyBar) : ℤ := b.wall.fdiv 1440

/-- The UTC minute count of a bar's timestamp: a timezone-aware timestamp
subtracts its carried offset; a naive one is read as UTC.  (Used by the
spec-side definitions below; the code itself never performs this.) -/
def utcOf (b : DailyBar) : ℤ :=
  match b.tzOff with
  | none => b.wall
  | some o => b.wall - o

/-- Modelled from the spec: Step 1 of `selectCompletedSession` — treat a
naive timestamp as UTC, convert into the venue's timezone (offset `off`),
truncate to the venue-local calendar date. -/
def normDate (off : ℤ) (b : DailyBar) : ℤ := (utcOf b + off).fdiv 1440

/-- `_previous_completed_daily_row(df, symbol)` on a venue with current
UTC offset `off` and session end `endMin` (minutes of day), evaluated at
UTC instant `nowUtc`.  Empty frame gives `none`; if the last bar's index
date equals venue-local today and the venue-local time is before the
session end, step back to the second-to-last bar when one exists. -/
def prevCompletedRow (df : List DailyBar) (off endMin nowUtc : ℤ) :
    Option DailyBar :=
  match df.getLast? with
  | none => none
  | some last =>
      if codeDate last = localToday off nowUtc ∧
          localTimeOfDay off nowUtc < endMin then
        if 2 ≤ df.length then df[df.length - 2]? else some last
      else some last

/-- Modelled from the spec: the same selection branching, but with every
bar's date obtained by the spec's Step 1 normalisation (`normDate`)
instead of the raw index date.  Used to state the claim that the selector
partitions bars by normalised venue-local dates. -/
def prevCompletedRowSpecNorm (df : List DailyBar) (off endMin nowUtc : ℤ) :
    Option DailyBar :=
  match df.getLast? with
  | none => none
  | some last =>
      if normDate off last = localToday off nowUtc ∧
          localTimeOfDay off nowUtc < endMin then
        if 2 ≤ df.length then df[df.length - 2]? else some last
      else some last

/-- Replace a bar's carried timezone annotation. -/
def withTz (o : Option ℤ) (b : DailyBar) : DailyBar := { b with tzOff := o }

/-- Python's `date.weekday()` for a date given as days since 1970-01-01
(a Thursday, weekday 3): Monday = 0 … Sunday = 6. -/
def weekday (d : ℤ) : Fin 7 := ⟨((d + 3) % 7).toNat, by omega⟩

/-- The `while d.weekday() not in open_days: d += 1` loop of
`_next_trading_date`, with explicit fuel. -/
def nextOpenLoop (days : List (Fin 7)) (d : ℤ) : ℕ → Option ℤ
  | 0 => none
  | fuel + 1 => if weekday d ∈ days then some d else nextOpenLoop days (d + 1) fuel

/-- `_next_trading_date(from_idx, symbol)` for a venue with weekly open
days `days`: add one day, then advance to the next open weekday.  Seven
fuel steps cover every weekday, so the fuel is never exhausted for the
table's venues. -/
def nextTradingDate (fromD : ℤ) (days : List (Fin 7)) : Option ℤ :=
  nextOpenLoop days (fromD + 1) 7

/-- The cleaning done by `_fetch_recent_daily` after the download: `None`
or empty frame gives `None`; otherwise drop the rows whose `Close` is
missing (`dropna(subset=["Close"])`) and return `None` if nothing is
left. -/
def fetchRecentDailyClean (df : Option (List DailyBar)) :
    Option (List DailyBar) :=
  match df with
  | none => none
  | some rows =>
      if rows.isEmpty then none
      else if (rows.filter (fun r => r.close.isSome)).isEmpty then none
      else some (rows.filter (fun r => r.close.isSome))

/-- A bar whose `Open` is missing but whose `Close` is present; used to
exercise the cleaning of `_fetch_recent_daily`. -/
def rowNoOpen : DailyBar :=
  ⟨0, none, none, some 1, some 1, some 1, some 1⟩

/-- Timezone-naive bar stamped 23:00 (wall clock) on day 100.  Read as UTC
and shifted into a venue at UTC+540 minutes its venue-local date is day
101, but `pandas.Timestamp.date()` yields day 100. -/
def naiveBar1 : DailyBar :=
  ⟨100 * 1440 + 1380, none, some 1, some 1, some 1, some 1, some 1⟩

/-- Timezone-naive bar stamped 23:00 (wall clock) on day 101; its
venue-local date at UTC+540 is day 102. -/
def naiveBar2 : DailyBar :=
  ⟨101 * 1440 + 1380, none, some 2, some 2, some 2, some 2, some 2⟩

/-- Timezone-aware UTC bar stamped 23:00 UTC on day 100 (venue-local date
at UTC+540: day 101). -/
def utcBar1 : DailyBar :=
  ⟨100 * 1440 + 1380, some 0, some 1, some 1, some 1, some 1, some 1⟩

/-- Timezone-aware UTC bar stamped 23:00 UTC on day 101 (venue-local date
at UTC+540: day 102). -/
def utcBar2 : DailyBar :=
  ⟨101 * 1440 + 1380, some 0, some 2, some 2, some 2, some 2, some 2⟩

/-- A bar stamped on day 105, strictly after the evaluation day 100 used
with it (a future-dated bar, as a source can produce via clock or
timezone skew). -/
def futureBar : DailyBar :=
  ⟨105 * 1440 + 600, some 0, some 1, some 1, some 1, some 1, some 1⟩

/-- UTC-stamped bar on day 99 at a zero-offset venue (stamp date and
venue-local date agree). -/
def alignedBar1 : DailyBar :=
  ⟨99 * 1440 + 600, some 0, some 1, some 1, some 1, some 1, some 1⟩

/-- UTC-stamped bar on day 100 at a zero-offset venue (stamp date and
venue-local date agree). -/
def alignedBar2 : DailyBar :=
  ⟨100 * 1440 + 600, some 0, some 2, some 2, some 2, some 2, some 2⟩

/-! ## Lemmas -/

lemma suffix_total {a b s : List Char} (ha : a <:+ s) (hb : b <:+ s) :
    a <:+ b ∨ b <:+ a := by
  obtain ⟨u, hu⟩ := ha
  obtain ⟨v, hv⟩ := hb
  have hua : a = s.drop u.length := by rw [← hu, List.drop_left]
  have hvb : b = s.drop v.length := by rw [← hv, List.drop_left]
  rcases le_total v.length u.length with h | h
  · left
    rw [hua, hvb, ← Nat.add_sub_cancel' h, ← List.drop_drop]
    exact List.drop_suffix _ _
  · right
    rw [hvb, hua, ← Nat.add_sub_cancel' h, ← List.drop_drop]
    exact List.drop_suffix _ _

/-- No suffix in the `EXCHANGES` table is a suffix of another, so a ticker
can match at most one table entry. -/
lemma exchanges_suffixes_independent :
    EXCHANGES.Pairwise
      (fun p q => p.1.isSuffixOf q.1 = false ∧ q.1.isSuffixOf p.1 = false) := by
  decide

lemma venueInfoLookup_eq_of_mem (tbl : List (List Char × ExchangeInfo))
    (u : List Char)
    (hpw : tbl.Pairwise
      (fun p q => p.1.isSuffixOf q.1 = false ∧ q.1.isSuffixOf p.1 = false))
    (suf : List Char) (info : ExchangeInfo)
    (hmem : (suf, info) ∈ tbl) (hsuf : suf <:+ u) :
    venueInfoLookup tbl u = info := by
  induction tbl with
  | nil => cases hmem
  | cons hd tl ih =>
      rcases List.pairwise_cons.mp hpw with ⟨hhd, htl⟩
      rcases List.mem_cons.mp hmem with heq | hmem'
      · subst heq
        simp [venueInfoLookup, List.isSuffixOf_iff_suffix, hsuf]
      · have hne : hd.1.isSuffixOf u = false := by
          rcases hhd (suf, info) hmem' with ⟨h₁, h₂⟩
          by_contra hcon
          have hhdu : hd.1 <:+ u := by
            rw [← List.isSuffixOf_iff_suffix]
            exact Bool.of_not_eq_false hcon
          rcases suffix_total hhdu hsuf with hc | hc
          · rw [← List.isSuffixOf_iff_suffix] at hc
            exact absurd hc (by simp [h₁])
          · rw [← List.isSuffixOf_iff_suffix] at hc
            exact absurd hc (by simp [h₂])
        obtain ⟨hsufhd, infohd⟩ := hd
        simp only [venueInfoLookup] at hne ⊢
        rw [hne]
        simp only [Bool.false_eq_true, if_false]
        exact ih htl hmem'

lemma venueInfoLookup_eq_default (tbl : List (List Char × ExchangeInfo))
    (u : List Char) (hno : ∀ p ∈ tbl, p.1.isSuffixOf u = false) :
    venueInfoLookup tbl u = defaultExchange := by
  induction tbl with
  | nil => rfl
  | cons hd tl ih =>
      obtain ⟨suf, info⟩ := hd
      have h := hno (suf, info) (List.mem_cons_self _ _)
      simp only [venueInfoLookup]
      rw [h]
      simp only [Bool.false_eq_true, if_false]
      exact ih (fun p hp => hno p (List.mem_cons_of_mem _ hp))

lemma nextOpenLoop_sound (days : List (Fin 7)) :
    ∀ (fuel : ℕ) (d r : ℤ), nextOpenLoop days d fuel = some r →
      d ≤ r ∧ weekday r ∈ days ∧ ∀ x, d ≤ x → x < r → weekday x ∉ days := by
  intro fuel
  induction fuel with
  | zero => intro d r h; cases h
  | succ n ih =>
      intro d r h
      by_cases hd : weekday d ∈ days
      · simp only [nextOpenLoop, if_pos hd, Option.some.injEq] at h
        subst h
        exact ⟨le_refl _, hd, fun x hx₁ hx₂ => absurd (lt_of_le_of_lt hx₁ hx₂) (lt_irrefl _)⟩
      · simp only [nextOpenLoop, if_neg hd] at h
        obtain ⟨h₁, h₂, h₃⟩ := ih (d + 1) r h
        refine ⟨by omega, h₂, fun x hx₁ hx₂ => ?_⟩
        rcases eq_or_lt_of_le hx₁ with hx | hx
        · subst hx; exact hd
        · exact h₃ x (by omega) hx₂

lemma nextOpenLoop_isSome (days : List (Fin 7)) :
    ∀ (fuel : ℕ) (d : ℤ), (∃ k : ℕ, k < fuel ∧ weekday (d + k) ∈ days) →
      (nextOpenLoop days d fuel).isSome = true := by
  intro fuel
  induction fuel with
  | zero => intro d ⟨k, hk, _⟩; omega
  | succ n ih =>
      intro d ⟨k, hk, hmem⟩
      by_cases hd : weekday d ∈ days
      · simp [nextOpenLoop, if_pos hd]
      · simp only [nextOpenLoop, if_neg hd]
        have hk0 : k ≠ 0 := by
          rintro rfl
          simp only [Nat.cast_zero, add_zero] at hmem
          exact hd hmem
        refine ih (d + 1) ⟨k - 1, by omega, ?_⟩
        have : d + 1 + ((k - 1 : ℕ) : ℤ) = d + (k : ℤ) := by
          have : (1 : ℤ) ≤ (k : ℤ) := by exact_mod_cast Nat.one_le_iff_ne_zero.mpr hk0
          push_cast [Nat.cast_sub (Nat.one_le_iff_ne_zero.mpr hk0)]
          ring
        rw [this]
        exact hmem

lemma weekday_add_exists (d : ℤ) (w : Fin 7) :
    ∃ k : ℕ, k < 7 ∧ weekday (d + k) = w := by
  refine ⟨(((w.val : ℤ) - (d + 3)) % 7).toNat, by omega, ?_⟩
  have hw : w.val < 7 := w.isLt
  apply Fin.ext
  show (((d + ((((w.val : ℤ) - (d + 3)) % 7).toNat : ℤ)) + 3) % 7).toNat = w.val
  omega

lemma exists_concat_concat {α : Type} (l : List α) (h : 2 ≤ l.length) :
    ∃ ys a b, l = ys ++ [a, b] := by
  rcases hr : l.reverse with _ | ⟨b, tl⟩
  · rw [List.reverse_eq_nil_iff] at hr
    subst hr
    simp at h
  · rcases tl with _ | ⟨a, t⟩
    · have hl : l = [b] := by
        have := congrArg List.reverse hr
        simpa using this
      subst hl
      simp at h
    · refine ⟨t.reverse, a, b, ?_⟩
      have := congrArg List.reverse hr
      simpa using this

lemma getLast?_concat_concat {α : Type} (ys : List α) (a b : α) :
    (ys ++ [a, b]).getLast? = some b := by
  rw [show ys ++ [a, b] = (ys ++ [a]) ++ [b] by simp]
  exact List.getLast?_concat _

lemma secondToLast_concat_concat {α : Type} (ys : List α) (a b : α) :
    (ys ++ [a, b])[(ys ++ [a, b]).length - 2]? = some a := by
  have hlen : (ys ++ [a, b]).length = ys.length + 2 := by simp
  rw [hlen, show ys.length + 2 - 2 = ys.length from by omega,
    List.getElem?_append_right (le_refl _)]
  simp

lemma mem_of_getLast?_eq {α : Type} {l : List α} {a : α}
    (h : l.getLast? = some a) : a ∈ l := by
  obtain ⟨hne, heq⟩ := List.mem_getLast?_eq_getLast (Option.mem_def.mpr h)
  rw [heq]
  exact List.getLast_mem hne

lemma chain'_concat_concat {α : Type} {R : α → α → Prop} {ys : List α}
    {a b : α} (h : List.Chain' R (ys ++ [a, b])) : R a b := by
  have h2 := (List.chain'_append.mp h).2.1
  exact (List.chain'_cons.mp h2).1

lemma prevCompletedRow_congr_last {df : List DailyBar} {last : DailyBar}
    (hlast : df.getLast? = some last) (off endMin nowUtc : ℤ) :
    prevCompletedRow df off endMin nowUtc =
      if codeDate last = localToday off nowUtc ∧
          localTimeOfDay off nowUtc < endMin then
        (if 2 ≤ df.length then df[df.length - 2]? else some last)
      else some last := by
  unfold prevCompletedRow
  rw [hlast]

lemma prevCompletedRow_mem {df : List DailyBar} {off endMin nowUtc : ℤ}
    {r : DailyBar} (h : prevCompletedRow df off endMin nowUtc = some r) :
    r ∈ df := by
  cases hlast : df.getLast? with
  | none => rw [prevCompletedRow, hlast] at h; cases h
  | some last =>
      rw [prevCompletedRow_congr_last hlast] at h
      by_cases hcond : codeDate last = localToday off nowUtc ∧
          localTimeOfDay off nowUtc < endMin
      · rw [if_pos hcond] at h
        by_cases hlen : 2 ≤ df.length
        · rw [if_pos hlen] at h
          exact List.getElem?_mem h
        · rw [if_neg hlen] at h
          cases h
          exact mem_of_getLast?_eq hlast
      · rw [if_neg hcond] at h
        cases h
        exact mem_of_getLast?_eq hlast

lemma eq_singleton_of_getLast?_of_len {df : List DailyBar} {last : DailyBar}
    (hlast : df.getLast? = some last) (hlen : ¬ 2 ≤ df.length) :
    df = [last] := by
  rcases df with _ | ⟨x, _ | ⟨y, t⟩⟩
  · cases hlast
  · simp only [List.getLast?_singleton, Option.some.injEq] at hlast
    rw [hlast]
  · exfalso
    apply hlen
    simp only [List.length_cons]
    omega

lemma codeDate_withTz (o : Option ℤ) (b : DailyBar) :
    codeDate (withTz o b) = codeDate b := rfl

/-- On a non-empty frame the selector always returns a row, that row is a
member of the frame, and it is the last row or (only in the step-back
branch) the second-to-last row. -/
lemma prevCompletedRow_total (df : List DailyBar) (off endMin nowUtc : ℤ)
    (hne : df ≠ []) :
    ∃ r, prevCompletedRow df off endMin nowUtc = some r ∧ r ∈ df ∧
      (df.getLast? = some r ∨
        2 ≤ df.length ∧ df[df.length - 2]? = some r) := by
  obtain ⟨last, hlast⟩ :=
    Option.isSome_iff_exists.mp (List.getLast?_isSome.mpr hne)
  rw [prevCompletedRow_congr_last hlast]
  by_cases hcond : codeDate last = localToday off nowUtc ∧
      localTimeOfDay off nowUtc < endMin
  · rw [if_pos hcond]
    by_cases hlen : 2 ≤ df.length
    · rw [if_pos hlen]
      have hlt : df.length - 2 < df.length := by omega
      obtain ⟨a, ha⟩ : ∃ a, df[df.length - 2]? = some a := by
        rw [List.getElem?_eq_getElem hlt]
        exact ⟨_, rfl⟩
      exact ⟨a, ha, List.getElem?_mem ha, Or.inr ⟨hlen, ha⟩⟩
    · rw [if_neg hlen]
      exact ⟨last, rfl, mem_of_getLast?_eq hlast, Or.inl hlast⟩
  · rw [if_neg hcond]
    exact ⟨last, rfl, mem_of_getLast?_eq hlast, Or.inl hlast⟩

/-! ## Claim theorems -/

/-- C2: for every ticker whose trailing characters (after upper-casing,
i.e. case-insensitively) match a suffix in the `EXCHANGES` table,
`_venue_info` returns exactly that suffix's configured venue descriptor
(its timezone, session start/end and open-weekday set).  The scan returns
the first declared match, and `exchanges_suffixes_independent` shows no
table suffix is a suffix of another, so at most one entry can match and
"first declared wins" degenerates to this unique-match statement. -/
theorem venue_resolution_table_driven (s suf : List Char)
    (info : ExchangeInfo) (hmem : (suf, info) ∈ EXCHANGES)
    (hsuf : suf <:+ upper s) :
    venueInfo s = info :=
  venueInfoLookup_eq_of_mem EXCHANGES (upper s)
    exchanges_suffixes_independent suf info hmem hsuf

theorem venue_resolution_table_driven_witness :
    venueInfo "reliance.ns".toList =
      ⟨"NSE", "Asia/Kolkata", 9, 15, 15, 30, MON_FRI⟩ :=
  venue_resolution_table_driven "reliance.ns".toList ".NS".toList
    ⟨"NSE", "Asia/Kolkata", 9, 15, 15, 30, MON_FRI⟩ (by decide)
    (by rw [← List.isSuffixOf_iff_suffix]; decide)

/-- C9: `_venue_info` is total by construction, and for every ticker whose
upper-cased form matches no table suffix it returns the single default
descriptor: venue "US", US/Eastern, session 09:30-16:00, Monday-Friday. -/
theorem venue_resolution_default_total :
    (∀ s : List Char,
        (∀ p ∈ EXCHANGES, p.1.isSuffixOf (upper s) = false) →
        venueInfo s = defaultExchange) ∧
      defaultExchange = ⟨"US", "US/Eastern", 9, 30, 16, 0, MON_FRI⟩ :=
  ⟨fun s hno => venueInfoLookup_eq_default EXCHANGES (upper s) hno, rfl⟩

theorem venue_resolution_default_total_witness :
    venueInfo "aapl".toList = defaultExchange :=
  venue_resolution_default_total.1 "aapl".toList (by decide)

/-- C5 (amended): `_fetch_recent_daily` keeps a row if and only if its
`Close` is present — `dropna(subset=["Close"])` checks only `Close`, so
rows missing `Open`, `High` or `Low` but carrying a `Close` survive the
cleaning. -/
theorem fetch_cleaning_close_only (rows : List DailyBar) (r : DailyBar) :
    r ∈ (fetchRecentDailyClean (some rows)).getD [] ↔
      r ∈ rows ∧ r.close.isSome = true := by
  by_cases hempty : rows.isEmpty
  · rw [List.isEmpty_iff] at hempty
    subst hempty
    simp [fetchRecentDailyClean]
  · by_cases hkept : (rows.filter (fun r => r.close.isSome)).isEmpty
    · simp only [fetchRecentDailyClean, if_neg hempty, if_pos hkept,
        Option.getD_none, List.not_mem_nil, false_iff, not_and]
      intro hr hc
      rw [List.isEmpty_iff] at hkept
      have hmem : r ∈ rows.filter (fun r => r.close.isSome) :=
        List.mem_filter.mpr ⟨hr, hc⟩
      rw [hkept] at hmem
      cases hmem
    · simp only [fetchRecentDailyClean, if_neg hempty, if_neg hkept,
        Option.getD_some, List.mem_filter]

/-- C5 (counterexample): a row with `Open` missing but `Close` present is
NOT discarded by the cleaning, contradicting the claim that every row
missing any one of open/high/low/close is dropped. -/
theorem fetch_cleaning_counterexample :
    fetchRecentDailyClean (some [rowNoOpen]) = some [rowNoOpen] ∧
      rowNoOpen.open_ = none := by decide

/-- C7: `_next_trading_date` returns the smallest date strictly after
`fromDate` whose weekday lies in the venue's open-day set; in
particular, over a Monday-Friday week, for day 1 (Friday 1970-01-02)
and day 2 (Saturday) it returns day 4 (Monday 1970-01-05). -/
theorem next_trading_date_minimal_open_day :
    (∀ (fromD : ℤ) (days : List (Fin 7)), days ≠ [] →
        ∃ r, nextTradingDate fromD days = some r ∧ fromD < r ∧
          weekday r ∈ days ∧
          ∀ x, fromD < x → x < r → weekday x ∉ days) ∧
      nextTradingDate 1 MON_FRI = some 4 ∧
      nextTradingDate 2 MON_FRI = some 4 := by
  refine ⟨?_, by decide, by decide⟩
  intro fromD days hne
  obtain ⟨w, hw⟩ := List.exists_mem_of_ne_nil days hne
  obtain ⟨k, hk, hkmem⟩ := weekday_add_exists (fromD + 1) w
  have hsome := nextOpenLoop_isSome days 7 (fromD + 1)
    ⟨k, hk, by rw [hkmem]; exact hw⟩
  obtain ⟨r, hr⟩ := Option.isSome_iff_exists.mp hsome
  obtain ⟨h₁, h₂, h₃⟩ := nextOpenLoop_sound days 7 (fromD + 1) r hr
  exact ⟨r, hr, by omega, h₂, fun x hx₁ hx₂ => h₃ x (by omega) hx₂⟩

theorem next_trading_date_minimal_open_day_witness :
    ∃ r, nextTradingDate 10 SUN_THU = some r ∧ 10 < r ∧
      weekday r ∈ SUN_THU ∧
      ∀ x, 10 < x → x < r → weekday x ∉ SUN_THU :=
  next_trading_date_minimal_open_day.1 10 SUN_THU (by decide)

/-- C8: the day-advancing loop of `_next_trading_date` is total for every
venue with a non-empty open-weekday set: seven fuel steps (one per
weekday) always suffice to reach an open day. -/
theorem next_trading_date_terminates_within_seven (fromD : ℤ)
    (days : List (Fin 7)) (hne : days ≠ []) :
    (nextTradingDate fromD days).isSome = true := by
  obtain ⟨w, hw⟩ := List.exists_mem_of_ne_nil days hne
  obtain ⟨k, hk, hkmem⟩ := weekday_add_exists (fromD + 1) w
  exact nextOpenLoop_isSome days 7 (fromD + 1) ⟨k, hk, by rw [hkmem]; exact hw⟩

theorem next_trading_date_terminates_within_seven_witness :
    (nextTradingDate 0 MON_FRI).isSome = true :=
  next_trading_date_terminates_within_seven 0 MON_FRI (by decide)

/-- C10: on every non-empty frame, `_previous_completed_daily_row` returns
a row (never `None`) that is an element of the frame, and that row is the
last row or — only via the step-back branch, which requires at least two
rows — the second-to-last row. -/
theorem selector_returns_last_or_second_last (df : List DailyBar)
    (off endMin nowUtc : ℤ) (hne : df ≠ []) :
    ∃ r, prevCompletedRow df off endMin nowUtc = some r ∧ r ∈ df ∧
      (df.getLast? = some r ∨
        2 ≤ df.length ∧ df[df.length - 2]? = some r) :=
  prevCompletedRow_total df off endMin nowUtc hne

theorem selector_returns_last_or_second_last_witness :
    ∃ r, prevCompletedRow [rowNoOpen] 0 0 0 = some r ∧ r ∈ [rowNoOpen] ∧
      ([rowNoOpen].getLast? = some r ∨
        2 ≤ [rowNoOpen].length ∧ [rowNoOpen][[rowNoOpen].length - 2]? = some r) :=
  selector_returns_last_or_second_last [rowNoOpen] 0 0 0 (by decide)

/-- C6: `_previous_completed_daily_row` returns `None` exactly on the
empty (cleaned) frame; and on a frame holding a single bar dated
venue-local today while the venue-local time is before session close, it
returns that single bar (the "best available" fallback) rather than
`None`. -/
theorem selector_none_iff_empty_and_singleton_fallback :
    (∀ (df : List DailyBar) (off endMin nowUtc : ℤ),
        prevCompletedRow df off endMin nowUtc = none ↔ df = []) ∧
      ∀ (b : DailyBar) (off endMin nowUtc : ℤ),
        normDate off b = localToday off nowUtc →
        localTimeOfDay off nowUtc < endMin →
        prevCompletedRow [b] off endMin nowUtc = some b := by
  constructor
  · intro df off endMin nowUtc
    constructor
    · intro h
      by_contra hne
      obtain ⟨r, hr, -, -⟩ := prevCompletedRow_total df off endMin nowUtc hne
      rw [h] at hr
      cases hr
    · rintro rfl
      rfl
  · intro b off endMin nowUtc _ _
    rw [prevCompletedRow_congr_last (show [b].getLast? = some b from rfl)]
    by_cases hcond : codeDate b = localToday off nowUtc ∧
        localTimeOfDay off nowUtc < endMin
    · rw [if_pos hcond, if_neg (by simp)]
    · rw [if_neg hcond]

theorem selector_none_iff_empty_and_singleton_fallback_witness :
    prevCompletedRow [alignedBar2] 0 960 (100 * 1440 + 600) =
        some alignedBar2 ∧
      prevCompletedRow [] 0 960 0 = none :=
  ⟨selector_none_iff_empty_and_singleton_fallback.2 alignedBar2 0 960
      (100 * 1440 + 600) (by decide) (by decide),
    (selector_none_iff_empty_and_singleton_fallback.1 [] 0 960 0).mpr rfl⟩

/-- C3 (counterexample): a frame whose single bar is stamped (and
venue-locally dated) day 105 while venue-local today is day 100 makes the
selector return that future-dated bar, so the returned bar's local date
is NOT always at most venue-local today. -/
theorem selector_future_bar_counterexample :
    prevCompletedRow [futureBar] 0 960 (100 * 1440 + 600) =
        some futureBar ∧
      localToday 0 (100 * 1440 + 600) = 100 ∧
      normDate 0 futureBar = 105 ∧
      ¬ normDate 0 futureBar ≤ localToday 0 (100 * 1440 + 600) := by decide

/-- C3 (amended): provided no bar of the series is dated (venue-locally)
after venue-local today, the bar returned by
`_previous_completed_daily_row` is dated at most venue-local today —
because the returned bar is always an element of the input series. -/
theorem selector_result_le_today_of_no_future_bars (df : List DailyBar)
    (off endMin nowUtc : ℤ)
    (hall : ∀ b ∈ df, normDate off b ≤ localToday off nowUtc) :
    ∀ r, prevCompletedRow df off endMin nowUtc = some r →
      normDate off r ≤ localToday off nowUtc :=
  fun r hr => hall r (prevCompletedRow_mem hr)

theorem selector_result_le_today_of_no_future_bars_witness :
    normDate 0 alignedBar1 ≤ localToday 0 (100 * 1440 + 600) :=
  selector_result_le_today_of_no_future_bars [alignedBar1] 0 960
    (100 * 1440 + 600) (by decide) alignedBar1 (by decide)

/-- C1 (counterexample): two timezone-aware UTC bars whose venue-local
(UTC+540) dates are day 101 and day 102, deduplicated and ordered by that
date, with venue-local today = day 102 and venue-local time 09:00 before
the 15:00 close: a bar with local date strictly before today exists, yet
the selector returns the bar whose venue-local date equals today, because
it partitions on the raw stamp date (day 101) instead of the venue-local
date. -/
theorem selector_today_before_close_counterexample :
    prevCompletedRow [utcBar1, utcBar2] 540 900 (102 * 1440) =
        some utcBar2 ∧
      normDate 540 utcBar2 = localToday 540 (102 * 1440) ∧
      localTimeOfDay 540 (102 * 1440) < 900 ∧
      normDate 540 utcBar1 < localToday 540 (102 * 1440) ∧
      normDate 540 utcBar1 ≠ normDate 540 utcBar2 := by decide

/-- C1 (amended): for a series whose bar stamps are already expressed in
the venue's frame (stamp date = venue-local date), ordered with strictly
increasing (hence deduplicated) venue-local dates, and containing at
least one bar dated strictly before venue-local today, the selector never
returns a bar whose venue-local date equals today while the venue-local
time is strictly before session close. -/
theorem selector_never_today_before_close_when_aligned
    (df : List DailyBar) (off endMin nowUtc : ℤ)
    (haligned : ∀ b ∈ df, codeDate b = normDate off b)
    (hsorted : df.Chain' (fun x y => normDate off x < normDate off y))
    (hearlier : ∃ b ∈ df, normDate off b < localToday off nowUtc)
    (hbefore : localTimeOfDay off nowUtc < endMin) :
    ∀ r, prevCompletedRow df off endMin nowUtc = some r →
      normDate off r ≠ localToday off nowUtc := by
  intro r hr
  obtain ⟨b0, hb0mem, hb0⟩ := hearlier
  have hne : df ≠ [] := by
    rintro rfl
    cases hb0mem
  obtain ⟨last, hlast⟩ :=
    Option.isSome_iff_exists.mp (List.getLast?_isSome.mpr hne)
  rw [prevCompletedRow_congr_last hlast] at hr
  by_cases hcond : codeDate last = localToday off nowUtc ∧
      localTimeOfDay off nowUtc < endMin
  · rw [if_pos hcond] at hr
    have hlastnorm : normDate off last = localToday off nowUtc := by
      rw [← haligned last (mem_of_getLast?_eq hlast)]
      exact hcond.1
    have hlen : 2 ≤ df.length := by
      by_contra hlen
      have hdf : df = [last] := eq_singleton_of_getLast?_of_len hlast hlen
      subst hdf
      rcases List.mem_singleton.mp hb0mem with rfl
      omega
    rw [if_pos hlen] at hr
    obtain ⟨ys, a, b, hdf⟩ := exists_concat_concat df hlen
    subst hdf
    have hb : b = last := by
      rw [getLast?_concat_concat] at hlast
      exact Option.some.inj hlast
    subst hb
    rw [secondToLast_concat_concat] at hr
    have har : a = r := Option.some.inj hr
    subst har
    have hab := chain'_concat_concat hsorted
    omega
  · rw [if_neg hcond] at hr
    have hlr : last = r := Option.some.inj hr
    subst hlr
    have hne' : codeDate last ≠ localToday off nowUtc :=
      fun h => hcond ⟨h, hbefore⟩
    rw [haligned last (mem_of_getLast?_eq hlast)] at hne'
    exact hne'

theorem selector_never_today_before_close_when_aligned_witness :
    normDate 0 alignedBar1 ≠ localToday 0 (100 * 1440 + 600) :=
  selector_never_today_before_close_when_aligned
    [alignedBar1, alignedBar2] 0 960 (100 * 1440 + 600)
    (by decide)
    (List.chain'_cons.mpr ⟨by decide, List.chain'_singleton _⟩)
    (by decide) (by decide) alignedBar1 (by decide)

/-- C4 (counterexample): on two timezone-naive bars at a UTC+540 venue,
the selector run on raw stamp dates returns the last bar, while the same
selection run on spec-normalised dates (naive read as UTC, converted to
the venue zone, then truncated) steps back and returns the first bar: the
code therefore does not perform the claimed normalise-then-truncate step
before partitioning. -/
theorem selector_no_normalization_counterexample :
    prevCompletedRow [naiveBar1, naiveBar2] 540 900 (102 * 1440) =
        some naiveBar2 ∧
      prevCompletedRowSpecNorm [naiveBar1, naiveBar2] 540 900 (102 * 1440) =
        some naiveBar1 ∧
      naiveBar1 ≠ naiveBar2 := by decide

/-- C4 (amended): the selector performs no timezone normalisation at all —
each bar's timestamp is truncated to a calendar date in the frame it
carries, so the timezone annotations of the bars are entirely ignored:
replacing every bar's annotation by an arbitrary one (including removing
it) commutes with the selection. -/
theorem selector_ignores_timezone_annotations (df : List DailyBar)
    (o : Option ℤ) (off endMin nowUtc : ℤ) :
    prevCompletedRow (df.map (withTz o)) off endMin nowUtc =
      (prevCompletedRow df off endMin nowUtc).map (withTz o) := by
  cases hlast : df.getLast? with
  | none =>
      have hdf : df = [] := by
        by_contra hne
        rw [← Option.not_isSome_iff_eq_none] at hlast
        exact hlast (List.getLast?_isSome.mpr hne)
      subst hdf
      rfl
  | some last =>
      have hmap : (df.map (withTz o)).getLast? = some (withTz o last) := by
        rw [List.getLast?_map, hlast]
        rfl
      rw [prevCompletedRow_congr_last hmap, prevCompletedRow_congr_last hlast]
      simp only [List.length_map, List.getElem?_map, codeDate_withTz]
      by_cases hcond : codeDate last = localToday off nowUtc ∧
          localTimeOfDay off nowUtc < endMin
      · rw [if_pos hcond, if_pos hcond]
        by_cases hlen : 2 ≤ df.length
        · rw [if_pos hlen, if_pos hlen]
        · rw [if_neg hlen, if_neg hlen]
          rfl
      · rw [if_neg hcond, if_neg hcond]
        rfl

end StockApp
